import Mathlib

/-!
Verification of the rpc-ring repository: a shallow embedding of its
compact string representation (`src/compact_str.rs`), its SPSC ring
structure (`src/lib.rs`) and its schema compiler
(`rpc-ring-macro/src/lib.rs`), together with theorems settling the
specification claims.
-/

namespace RpcRing

/-! ### Little-endian byte packing

The Rust code views the first two 8-byte words of the `bytes : [u8; N]`
array as `usize` values via `transmute` (`first_usize`, `second_usize`).
We model the byte array as a `List Nat` (each entry a byte value) and a
`usize` store/load as writing/reading 8 bytes in little-endian order,
the layout of the `target_endian = "little"` branches of the source.
-/

/-- Writes the `m` low-order bytes of `v` at positions `off, off+1, ...`
of `l`, least significant byte first. -/
def writeBytesLE : Nat → Nat → Nat → List Nat → List Nat
  | 0, _, _, l => l
  | m + 1, off, v, l => writeBytesLE m (off + 1) (v / 256) (l.set off (v % 256))

/-- Reads `m` bytes at positions `off, off+1, ...` of `l` as a
little-endian number. Out-of-range positions read as `0`. -/
def readBytesLE : Nat → Nat → List Nat → Nat
  | 0, _, _ => 0
  | m + 1, off, l => l.getD off 0 + 256 * readBytesLE m (off + 1) l

theorem writeBytesLE_length (m off v : Nat) (l : List Nat) :
    (writeBytesLE m off v l).length = l.length := by
  induction m generalizing off v l with
  | zero => rfl
  | succ m ih => simp [writeBytesLE, ih]

theorem getD_writeBytesLE_outside (m off v j : Nat) (l : List Nat)
    (h : j < off ∨ off + m ≤ j) :
    (writeBytesLE m off v l).getD j 0 = l.getD j 0 := by
  induction m generalizing off v l with
  | zero => rfl
  | succ m ih =>
    have hj : j ≠ off := by omega
    rw [writeBytesLE, ih (off + 1) (v / 256) (l.set off (v % 256)) (by omega)]
    simp [List.getD_eq_getElem?_getD, List.getElem?_set_ne (Ne.symm hj)]

theorem readBytesLE_writeBytesLE (k : Nat) :
    ∀ (m off v : Nat) (l : List Nat), k ≤ m → off + k ≤ l.length →
    readBytesLE k off (writeBytesLE m off v l) = v % 256 ^ k := by
  induction k with
  | zero => intro m off v l _ _; simp [readBytesLE, Nat.mod_one]
  | succ k ih =>
    intro m off v l hk hlen
    match m, hk with
    | m + 1, hk =>
      rw [readBytesLE, writeBytesLE]
      rw [ih m (off + 1) (v / 256) (l.set off (v % 256)) (by omega)
        (by simp; omega)]
      rw [getD_writeBytesLE_outside m (off + 1) (v / 256) off _ (by omega)]
      have hofflt : off < l.length := by omega
      simp only [List.getD_eq_getElem?_getD, List.getElem?_set_self hofflt,
        Option.getD_some]
      have h256 : (256 : Nat) ^ (k + 1) = 256 * 256 ^ k := by ring
      rw [h256, Nat.mod_mul]

theorem readBytesLE_lt (m off : Nat) (l : List Nat)
    (hl : ∀ b ∈ l, b < 256) :
    readBytesLE m off l < 256 ^ m := by
  induction m generalizing off with
  | zero => simp [readBytesLE]
  | succ m ih =>
    rw [readBytesLE]
    have h1 : l.getD off 0 < 256 := by
      rcases h : l[off]? with _ | b
      · simp [List.getD_eq_getElem?_getD, h]
      · have : b ∈ l := List.getElem?_mem h
        simpa [List.getD_eq_getElem?_getD, h] using hl b this
    have h2 := ih (off + 1)
    have : (256 : Nat) ^ (m + 1) = 256 ^ m * 256 := by ring
    omega

theorem readBytesLE_set_outside (m off j x : Nat) (l : List Nat)
    (h : j < off ∨ off + m ≤ j) :
    readBytesLE m off (l.set j x) = readBytesLE m off l := by
  induction m generalizing off with
  | zero => rfl
  | succ m ih =>
    have hj : j ≠ off := by omega
    rw [readBytesLE, readBytesLE, ih (off + 1) (by omega)]
    simp [List.getD_eq_getElem?_getD, List.getElem?_set_ne hj]

theorem mem_writeBytesLE_lt (m off v b : Nat) (l : List Nat)
    (hl : ∀ x ∈ l, x < 256) (hb : b ∈ writeBytesLE m off v l) : b < 256 := by
  induction m generalizing off v l with
  | zero => exact hl b hb
  | succ m ih =>
    rw [writeBytesLE] at hb
    refine ih (off + 1) (v / 256) (l.set off (v % 256)) ?_ hb
    intro x hx
    rcases List.mem_or_eq_of_mem_set hx with hx | hx
    · exact hl x hx
    · omega

/-! ### Compact string (`src/compact_str.rs`)

`CompactString<N>` is `#[repr(C, align(8))] struct { bytes: [u8; N] }`.
We model the byte array as a `List Nat` of length `N`. Because the
`new` path with `len > N` allocates, operations that can touch the heap
thread an explicit allocator state: a list of live allocations
(address and content) plus the address the next allocation receives.
-/

structure CompactString (N : Nat) where
  bytes : List Nat
deriving Repr, DecidableEq

/-- Well-formed byte block: exactly `N` bytes, each a byte value. -/
def CompactString.Wf {N : Nat} (s : CompactString N) : Prop :=
  s.bytes.length = N ∧ ∀ b ∈ s.bytes, b < 256

/-- Models the explicit heap: live allocations and the next fresh address. -/
structure AllocState where
  nextAddr : Nat
  live : List (Nat × List Nat)
deriving Repr, DecidableEq

def AllocState.alloc (st : AllocState) (content : List Nat) :
    Nat × AllocState :=
  (st.nextAddr,
   { nextAddr := st.nextAddr + content.length + 1,
     live := (st.nextAddr, content) :: st.live })

def AllocState.free (st : AllocState) (addr : Nat) : AllocState :=
  { st with live := st.live.filter (fun p => p.1 ≠ addr) }

namespace CompactString

/-- Mirrors `LAST_BYTE_FIRST_INVALID_UTF8` in the source. -/
def lastByteFirstInvalidUtf8 : Nat := 192

/-- Mirrors `LAST_BYTE_HEAP` in the source. -/
def lastByteHeap : Nat := 253

/-- Mirrors `LAST_BYTE_STATIC` in the source. -/
def lastByteStatic : Nat := 254

/-- Mirrors `last_byte`: the final byte of the block. -/
def lastByte {N : Nat} (s : CompactString N) : Nat :=
  s.bytes.getD (N - 1) 0

/-- Mirrors the `EMPTY` constant: an all-zero block whose final byte is
the tag `192`. -/
def empty (N : Nat) : CompactString N :=
  ⟨(List.replicate N 0).set (N - 1) lastByteFirstInvalidUtf8⟩

/-- Mirrors `ptr::copy_nonoverlapping(src, dst, src.length)` into offset
`0` of `dst` (defined whenever `src.length ≤ dst.length`). -/
def overlayBytes (src dst : List Nat) : List Nat :=
  src ++ dst.drop src.length

/-- Mirrors `CompactString::new`. `text` is the UTF-8 byte content of
the argument string. Returns the constructed value together with the
allocator state after the call. -/
def new (N : Nat) (text : List Nat) (st : AllocState) :
    CompactString N × AllocState :=
  if text.length = 0 then
    (empty N, st)
  else if text.length ≤ N then
    (⟨overlayBytes text
        ((List.replicate N 0).set (N - 1)
          ((text.length % 256) ||| lastByteFirstInvalidUtf8))⟩,
     st)
  else
    let (addr, st1) := st.alloc text
    (⟨((writeBytesLE 8 8 text.length
          (writeBytesLE 8 0 addr (List.replicate N 0))).set (N - 1)
          lastByteHeap)⟩,
     st1)

/-- Mirrors `CompactString::new_static`. The borrowed text is given by
its address and length; the allocator state is threaded to record that
the function never allocates. -/
def new_static (N : Nat) (addr len : Nat) (st : AllocState) :
    CompactString N × AllocState :=
  if len = 0 then
    (empty N, st)
  else
    (⟨((writeBytesLE 8 8 len
          (writeBytesLE 8 0 addr (List.replicate N 0))).set (N - 1)
          lastByteStatic)⟩,
     st)

/-- Result of `as_slice`: either a view into the value's own inline
bytes, or a raw-pointer view (address and length) into external memory. -/
inductive ByteView where
  | stack (data : List Nat)
  | mem (addr len : Nat)
deriving Repr, DecidableEq

/-- Mirrors `CompactString::as_slice` (little-endian branches). -/
def as_slice {N : Nat} (s : CompactString N) : ByteView :=
  if lastByteHeap ≤ s.lastByte then
    .mem (readBytesLE 8 0 s.bytes)
      (readBytesLE 8 8 s.bytes &&& 0x00FFFFFFFFFFFFFF)
  else
    .stack (s.bytes.take
      (min ((s.lastByte + 256 - lastByteFirstInvalidUtf8) % 256) N))

/-- Mirrors `impl Drop for CompactString` (little-endian branch).
Returns the allocator state after the call together with the list of
addresses passed to the deallocator during this destruction. -/
def drop {N : Nat} (s : CompactString N) (st : AllocState) :
    AllocState × List Nat :=
  if s.lastByte = lastByteHeap then
    let addr := readBytesLE 8 0 s.bytes
    (st.free addr, [addr])
  else
    (st, [])

end CompactString

/-! ### UTF-8 encoding

A string is a sequence of Unicode scalar values; its byte content is
the UTF-8 encoding of that sequence. The source relies on one shape
fact (the comment above `LAST_BYTE_FIRST_INVALID_UTF8`): the final byte
of a nonempty encoded string is an ASCII or continuation byte, hence
`< 192`, never a lead byte. We model the encoder at the byte level and
prove that fact; `ValidUtf8` states that a byte list is the encoding of
some scalar sequence. -/

def utf8EncodeCharBytes (c : Char) : List Nat :=
  if c.toNat < 0x80 then
    [c.toNat]
  else if c.toNat < 0x800 then
    [0xC0 ||| (c.toNat >>> 6), 0x80 ||| (c.toNat &&& 0x3F)]
  else if c.toNat < 0x10000 then
    [0xE0 ||| (c.toNat >>> 12), 0x80 ||| ((c.toNat >>> 6) &&& 0x3F),
     0x80 ||| (c.toNat &&& 0x3F)]
  else
    [0xF0 ||| (c.toNat >>> 18), 0x80 ||| ((c.toNat >>> 12) &&& 0x3F),
     0x80 ||| ((c.toNat >>> 6) &&& 0x3F), 0x80 ||| (c.toNat &&& 0x3F)]

def utf8Encode (cs : List Char) : List Nat :=
  cs.flatMap utf8EncodeCharBytes

/-- A byte list is valid UTF-8 when it encodes some character sequence. -/
def ValidUtf8 (l : List Nat) : Prop :=
  ∃ cs : List Char, utf8Encode cs = l

theorem lor128_lt (x : Nat) (hx : x < 64) : 0x80 ||| x < 192 := by
  have h : ∀ y : Fin 64, (0x80 ||| (y : Nat)) < 192 := by decide
  exact h ⟨x, hx⟩

theorem and63_lt (v : Nat) : v &&& 0x3F < 64 := by
  have h : (0x3F : Nat) = 2 ^ 6 - 1 := by norm_num
  rw [h, Nat.and_pow_two_sub_one_eq_mod]
  exact Nat.mod_lt _ (by norm_num)

theorem utf8EncodeCharBytes_getLast?_lt (c : Char) :
    ∃ b, (utf8EncodeCharBytes c).getLast? = some b ∧ b < 192 := by
  unfold utf8EncodeCharBytes
  split
  · next hv => exact ⟨c.toNat, by simp, by omega⟩
  split
  · exact ⟨0x80 ||| (c.toNat &&& 0x3F), by simp, lor128_lt _ (and63_lt _)⟩
  split
  · exact ⟨0x80 ||| (c.toNat &&& 0x3F), by simp, lor128_lt _ (and63_lt _)⟩
  · exact ⟨0x80 ||| (c.toNat &&& 0x3F), by simp, lor128_lt _ (and63_lt _)⟩

theorem utf8EncodeCharBytes_ne_nil (c : Char) : utf8EncodeCharBytes c ≠ [] := by
  obtain ⟨b, hb, _⟩ := utf8EncodeCharBytes_getLast?_lt c
  intro h
  rw [h] at hb
  exact Option.noConfusion hb

/-- The final byte of a nonempty UTF-8 encoded string is `< 192`. -/
theorem utf8Encode_getLast?_lt (cs : List Char) (h : cs ≠ []) :
    ∃ b, (utf8Encode cs).getLast? = some b ∧ b < 192 := by
  induction cs with
  | nil => exact absurd rfl h
  | cons c rest ih =>
    rcases rest with _ | ⟨d, ds⟩
    · simpa [utf8Encode] using utf8EncodeCharBytes_getLast?_lt c
    · obtain ⟨b, hb, hlt⟩ := ih (by simp)
      refine ⟨b, ?_, hlt⟩
      have he : utf8Encode (c :: d :: ds) =
          utf8EncodeCharBytes c ++ utf8Encode (d :: ds) := by
        simp [utf8Encode]
      have hne : utf8Encode (d :: ds) ≠ [] := by
        simp only [utf8Encode, List.flatMap_cons]
        intro hnil
        rcases List.append_eq_nil.mp hnil with ⟨h1, _⟩
        exact utf8EncodeCharBytes_ne_nil d h1
      rw [he, List.getLast?_append, hb]
      rfl

/-! ### Facts about the compact string operations -/

theorem lor192_eq (a : Nat) (h : a < 64) : a ||| 192 = 192 + a := by
  have h2 : ∀ y : Fin 64, ((y : Nat) ||| 192) = 192 + (y : Nat) := by decide
  exact h2 ⟨a, h⟩

theorem empty_lastByte (N : Nat) (hN : 1 ≤ N) :
    (CompactString.empty N).lastByte = 192 := by
  unfold CompactString.empty CompactString.lastByte
    CompactString.lastByteFirstInvalidUtf8
  have hlt : N - 1 < (List.replicate N (0 : Nat)).length := by
    simp; omega
  simp [List.getD_eq_getElem?_getD, List.getElem?_set_self hlt]

theorem as_slice_empty (N : Nat) (hN : 1 ≤ N) :
    (CompactString.empty N).as_slice = CompactString.ByteView.stack [] := by
  unfold CompactString.as_slice
  rw [empty_lastByte N hN]
  norm_num [CompactString.lastByteHeap, CompactString.lastByteFirstInvalidUtf8]

theorem overlay_getD_of_lt (text base : List Nat) (j : Nat)
    (hj : text.length ≤ j) :
    (CompactString.overlayBytes text base).getD j 0 = base.getD j 0 := by
  unfold CompactString.overlayBytes
  simp only [List.getD_eq_getElem?_getD]
  rw [List.getElem?_append_right hj, List.getElem?_drop]
  congr 2
  omega

/-- Byte block produced by `new` on the inline path. -/
theorem new_inline_bytes (N : Nat) (text : List Nat) (st : AllocState)
    (h0 : text.length ≠ 0) (hle : text.length ≤ N) :
    (CompactString.new N text st).1.bytes =
      CompactString.overlayBytes text
        ((List.replicate N 0).set (N - 1)
          ((text.length % 256) ||| 192)) := by
  unfold CompactString.new
  rw [if_neg h0, if_pos hle]
  rfl

/-- Tag byte written by `new` when `0 < len < N`. -/
theorem new_inline_lastByte_lt (N : Nat) (text : List Nat) (st : AllocState)
    (h0 : text.length ≠ 0) (hlt : text.length < N) (hN : N ≤ 61) :
    (CompactString.new N text st).1.lastByte = 192 + text.length := by
  rw [CompactString.lastByte, new_inline_bytes N text st h0 (by omega)]
  rw [overlay_getD_of_lt _ _ _ (by omega)]
  have hset : N - 1 < ((List.replicate N (0 : Nat))).length := by simp; omega
  simp only [List.getD_eq_getElem?_getD, List.getElem?_set_self hset,
    Option.getD_some]
  rw [Nat.mod_eq_of_lt (by omega), lor192_eq _ (by omega)]

/-- With `len = N` the copy overwrites the tag: the block is exactly the
text. -/
theorem new_inline_bytes_full (N : Nat) (text : List Nat) (st : AllocState)
    (h0 : text.length ≠ 0) (heq : text.length = N) :
    (CompactString.new N text st).1.bytes = text := by
  rw [new_inline_bytes N text st h0 (by omega)]
  unfold CompactString.overlayBytes
  rw [List.drop_of_length_le (by simp [heq]), List.append_nil]

/-- C1: for every valid UTF-8 string `s` with length between 0 and `N`
(16 ≤ N ≤ 61), `CompactString::<N>::new(s).as_str()` returns exactly
`s` (its slice is the original byte content), and every such result of
length 0 is bit-identical to the canonical tag-192 empty
representation. -/
theorem C1_new_roundtrip (N : Nat) (text : List Nat) (st : AllocState)
    (hN1 : 16 ≤ N) (hN2 : N ≤ 61) (hutf : ValidUtf8 text)
    (hlen : text.length ≤ N) :
    (CompactString.new N text st).1.as_slice =
      CompactString.ByteView.stack text ∧
    (text.length = 0 →
      (CompactString.new N text st).1 = CompactString.empty N) := by
  by_cases h0 : text.length = 0
  · have htext : text = [] := List.length_eq_zero.mp h0
    subst htext
    constructor
    · show (CompactString.empty N).as_slice = CompactString.ByteView.stack []
      exact as_slice_empty N (by omega)
    · intro _
      rfl
  · refine ⟨?_, fun h => absurd h h0⟩
    by_cases hfull : text.length = N
    · -- len = N: the copy overwrites the tag byte; the final byte of the
      -- text itself plays the tag role and is < 192 by UTF-8 validity.
      obtain ⟨cs, hcs⟩ := hutf
      have hcsne : cs ≠ [] := by
        intro h
        subst h
        simp [utf8Encode] at hcs
        exact h0 (by simp [hcs])
      obtain ⟨b, hb, hblt⟩ := utf8Encode_getLast?_lt cs hcsne
      rw [hcs] at hb
      have hbytes := new_inline_bytes_full N text st h0 hfull
      have hlb : (CompactString.new N text st).1.lastByte = b := by
        rw [CompactString.lastByte, hbytes]
        rw [List.getLast?_eq_getElem?] at hb
        simp [List.getD_eq_getElem?_getD, hfull ▸ hb]
      unfold CompactString.as_slice
      rw [hlb, hbytes]
      rw [if_neg (by unfold CompactString.lastByteHeap; omega)]
      have harith : (b + 256 - CompactString.lastByteFirstInvalidUtf8) % 256
          = b + 64 := by
        unfold CompactString.lastByteFirstInvalidUtf8
        omega
      rw [harith]
      rw [min_eq_right (by omega)]
      rw [List.take_of_length_le (by omega)]
    · -- 0 < len < N: tag is 192 + len.
      have hlt : text.length < N := by omega
      have hlb := new_inline_lastByte_lt N text st h0 hlt hN2
      unfold CompactString.as_slice
      rw [hlb]
      rw [if_neg (by unfold CompactString.lastByteHeap; omega)]
      have harith : (192 + text.length + 256 -
          CompactString.lastByteFirstInvalidUtf8) % 256 = text.length := by
        unfold CompactString.lastByteFirstInvalidUtf8
        omega
      rw [harith, min_eq_left (by omega)]
      rw [new_inline_bytes N text st h0 (by omega)]
      unfold CompactString.overlayBytes
      rw [List.take_left']
      rfl

/-- Witness for C1 at `N = 16`, text "hi" (bytes `[104, 105]`) and the
empty string. -/
theorem C1_new_roundtrip_witness :
    ((CompactString.new 16 [104, 105] ⟨0, []⟩).1.as_slice =
      CompactString.ByteView.stack [104, 105]) ∧
    ((CompactString.new 16 ([] : List Nat) ⟨0, []⟩).1 =
      CompactString.empty 16) :=
  ⟨(C1_new_roundtrip 16 [104, 105] ⟨0, []⟩ (by norm_num) (by norm_num)
      ⟨[Char.ofNat 104, Char.ofNat 105], by decide⟩ (by decide)).1,
   (C1_new_roundtrip 16 [] ⟨0, []⟩ (by norm_num) (by norm_num)
      ⟨[], rfl⟩ (by decide)).2 rfl⟩

/-- C10: a stack-stored value (tag byte below 253) always yields a
slice of at most `N` bytes: the length is `min(tag -wrap- 192, N)`, and
a tag in `0..192` yields exactly `N` bytes. -/
theorem C10_stack_slice_bounded (N : Nat) (s : CompactString N)
    (hw : s.bytes.length = N) (hN : N ≤ 61)
    (h : s.lastByte < 253) :
    s.as_slice = CompactString.ByteView.stack
      (s.bytes.take (min ((s.lastByte + 256 - 192) % 256) N)) ∧
    (s.bytes.take (min ((s.lastByte + 256 - 192) % 256) N)).length ≤ N ∧
    (s.lastByte < 192 →
      (s.bytes.take (min ((s.lastByte + 256 - 192) % 256) N)).length = N) := by
  refine ⟨?_, ?_, ?_⟩
  · unfold CompactString.as_slice
    rw [if_neg (by unfold CompactString.lastByteHeap; omega)]
    rfl
  · simp [List.length_take, hw]
  · intro hlt
    have harith : (s.lastByte + 256 - 192) % 256 = s.lastByte + 64 := by
      omega
    rw [harith]
    simp only [List.length_take, hw]
    omega

/-- Witness for C10 at a concrete 16-byte block with tag byte 100. -/
theorem C10_stack_slice_bounded_witness :
    (CompactString.as_slice (N := 16) ⟨List.replicate 15 7 ++ [100]⟩ =
      CompactString.ByteView.stack (List.replicate 15 7 ++ [100])) ∧
    ((List.replicate 15 (7 : Nat) ++ [100]).length = 16) := by
  have h := C10_stack_slice_bounded 16 ⟨List.replicate 15 7 ++ [100]⟩
    (by decide) (by decide) (by decide)
  refine ⟨?_, by decide⟩
  have h3 := h.1
  rw [h3]
  decide

theorem readBytesLE_succ_last (m : Nat) :
    ∀ (off : Nat) (l : List Nat),
    readBytesLE (m + 1) off l =
      readBytesLE m off l + 256 ^ m * l.getD (off + m) 0 := by
  induction m with
  | zero => intro off l; simp [readBytesLE]
  | succ m ih =>
    intro off l
    rw [readBytesLE, ih (off + 1) l, readBytesLE]
    have harr : off + 1 + m = off + (m + 1) := by omega
    rw [harr]
    ring

theorem readBytesLE_write_disjoint (m : Nat) :
    ∀ (off m2 off2 v : Nat) (l : List Nat),
    (off + m ≤ off2 ∨ off2 + m2 ≤ off) →
    readBytesLE m off (writeBytesLE m2 off2 v l) = readBytesLE m off l := by
  induction m with
  | zero => intro off m2 off2 v l _; rfl
  | succ m ih =>
    intro off m2 off2 v l h
    rw [readBytesLE, readBytesLE, ih (off + 1) m2 off2 v l (by omega),
      getD_writeBytesLE_outside m2 off2 v off l (by omega)]

/-- The byte block shared by the heap branch of `new` and by
`new_static`: pointer in bytes 0..8, length in bytes 8..16, tag in the
final byte. -/
theorem ptrBlock_lastByte (N addr len tag : Nat) (hN : 1 ≤ N) :
    (CompactString.lastByte (N := N)
      ⟨((writeBytesLE 8 8 len
          (writeBytesLE 8 0 addr (List.replicate N 0))).set (N - 1) tag)⟩) =
    tag := by
  unfold CompactString.lastByte
  have hlt : N - 1 <
      ((writeBytesLE 8 8 len
        (writeBytesLE 8 0 addr (List.replicate N 0)))).length := by
    rw [writeBytesLE_length, writeBytesLE_length]
    simp
    omega
  simp [List.getD_eq_getElem?_getD, List.getElem?_set_self hlt]

theorem ptrBlock_readPtr (N addr len tag : Nat) (hN : 16 ≤ N)
    (haddr : addr < 2 ^ 64) :
    readBytesLE 8 0
      ((writeBytesLE 8 8 len
        (writeBytesLE 8 0 addr (List.replicate N 0))).set (N - 1) tag) =
    addr := by
  rw [readBytesLE_set_outside 8 0 (N - 1) tag _ (by omega)]
  rw [readBytesLE_write_disjoint 8 0 8 8 len _ (by omega)]
  rw [readBytesLE_writeBytesLE 8 8 0 addr _ (by omega) (by simp; omega)]
  have h : (256 : Nat) ^ 8 = 2 ^ 64 := by norm_num
  rw [h, Nat.mod_eq_of_lt haddr]

theorem ptrBlock_readLen (N addr len tag : Nat) (hN : 16 ≤ N)
    (hlen : len < 2 ^ 56) :
    readBytesLE 8 8
      ((writeBytesLE 8 8 len
        (writeBytesLE 8 0 addr (List.replicate N 0))).set (N - 1) tag) &&&
      0x00FFFFFFFFFFFFFF =
    len := by
  set block := (writeBytesLE 8 8 len
    (writeBytesLE 8 0 addr (List.replicate N 0))).set (N - 1) tag with hblock
  have hlow : readBytesLE 7 8 block = len := by
    rw [hblock, readBytesLE_set_outside 7 8 (N - 1) tag _ (by omega)]
    rw [readBytesLE_writeBytesLE 7 8 8 len _ (by omega)
      (by rw [writeBytesLE_length]; simp; omega)]
    have h : (256 : Nat) ^ 7 = 2 ^ 56 := by norm_num
    rw [h, Nat.mod_eq_of_lt hlen]
  have hsplit := readBytesLE_succ_last 7 8 block
  have hmask : (0x00FFFFFFFFFFFFFF : Nat) = 2 ^ 56 - 1 := by norm_num
  rw [hsplit, hmask, Nat.and_pow_two_sub_one_eq_mod, hlow]
  have h7 : (256 : Nat) ^ 7 = 2 ^ 56 := by norm_num
  rw [h7, Nat.add_mul_mod_self_left, Nat.mod_eq_of_lt hlen]

theorem new_heap_parts (N : Nat) (text : List Nat) (st : AllocState)
    (hbig : N < text.length) :
    (CompactString.new N text st).1.bytes =
      (writeBytesLE 8 8 text.length
        (writeBytesLE 8 0 st.nextAddr (List.replicate N 0))).set (N - 1)
        CompactString.lastByteHeap ∧
    (CompactString.new N text st).2 = (st.alloc text).2 := by
  unfold CompactString.new
  rw [if_neg (by omega), if_neg (by omega)]
  unfold AllocState.alloc
  exact ⟨rfl, rfl⟩

/-- C6 (amended): for every nonempty static string, `new_static` never
copies the contents — the view returned by `as_slice` is the address of
the original text with its exact length — and it never allocates, and
destruction never frees. For the empty string the code instead returns
the canonical inline empty representation (still allocation-free and
free-free). -/
theorem C6_new_static_no_copy (N addr len : Nat) (st st2 : AllocState)
    (hN : 16 ≤ N) (haddr : addr < 2 ^ 64) (hlen : len < 2 ^ 56) :
    ((CompactString.new_static N addr len st).2 = st) ∧
    (len ≠ 0 →
      (CompactString.new_static N addr len st).1.as_slice =
        CompactString.ByteView.mem addr len) ∧
    (len = 0 →
      (CompactString.new_static N addr len st).1 = CompactString.empty N) ∧
    (CompactString.drop (CompactString.new_static N addr len st).1 st2 =
      (st2, [])) := by
  by_cases h0 : len = 0
  · subst h0
    unfold CompactString.new_static
    rw [if_pos rfl]
    refine ⟨rfl, fun h => absurd rfl h, fun _ => rfl, ?_⟩
    unfold CompactString.drop
    rw [if_neg ?_]
    rw [empty_lastByte N (by omega)]
    unfold CompactString.lastByteHeap
    omega
  · have hbytes : (CompactString.new_static N addr len st).1.bytes =
        (writeBytesLE 8 8 len
          (writeBytesLE 8 0 addr (List.replicate N 0))).set (N - 1)
          CompactString.lastByteStatic := by
      unfold CompactString.new_static
      rw [if_neg h0]
    have hst : (CompactString.new_static N addr len st).2 = st := by
      unfold CompactString.new_static
      rw [if_neg h0]
    have hlb : (CompactString.new_static N addr len st).1.lastByte = 254 := by
      have h2 : (CompactString.new_static N addr len st).1.lastByte =
          CompactString.lastByte (N := N) ⟨(writeBytesLE 8 8 len
            (writeBytesLE 8 0 addr (List.replicate N 0))).set (N - 1)
            CompactString.lastByteStatic⟩ := by
        unfold CompactString.lastByte
        rw [hbytes]
      rw [h2, ptrBlock_lastByte N addr len _ (by omega)]
      rfl
    refine ⟨hst, fun _ => ?_, fun h => absurd h h0, ?_⟩
    · unfold CompactString.as_slice
      rw [hlb, if_pos (by unfold CompactString.lastByteHeap; omega), hbytes]
      rw [ptrBlock_readPtr N addr len _ hN haddr,
        ptrBlock_readLen N addr len _ hN hlen]
    · unfold CompactString.drop
      rw [hlb]
      rw [if_neg (by unfold CompactString.lastByteHeap; omega)]

/-- Counterexample to C6 as stated: for the empty static string (here
at address 4096), the returned view is the inline empty representation,
not a view at the source address. -/
theorem C6_counterexample :
    (CompactString.new_static 16 4096 0 ⟨0, []⟩).1.as_slice ≠
      CompactString.ByteView.mem 4096 0 := by
  decide

/-- Witness for C6 (amended) at `N = 16`, address 4096, length 3. -/
theorem C6_new_static_no_copy_witness :
    ((CompactString.new_static 16 4096 3 ⟨0, []⟩).2 = ⟨0, []⟩) ∧
    ((CompactString.new_static 16 4096 3 ⟨0, []⟩).1.as_slice =
      CompactString.ByteView.mem 4096 3) ∧
    (CompactString.drop (CompactString.new_static 16 4096 3 ⟨0, []⟩).1
      ⟨7, [(5, [1, 2])]⟩ = (⟨7, [(5, [1, 2])]⟩, [])) := by
  have h := C6_new_static_no_copy 16 4096 3 ⟨0, []⟩ ⟨7, [(5, [1, 2])]⟩
    (by norm_num) (by norm_num) (by norm_num)
  exact ⟨h.1, h.2.1 (by norm_num), h.2.2.2⟩

/-- C7: destruction passes exactly one address to the deallocator iff
the tag byte is 253 (the stored pointer), and releases nothing for
every other tag; a heap value built by `new` performs exactly one
allocation, and its destruction frees exactly that allocation, once. -/
theorem C7_drop_frees_iff (N : Nat) (s : CompactString N) (st : AllocState)
    (text : List Nat) (st0 st1 : AllocState) (hN : 16 ≤ N)
    (hbig : N < text.length) (haddr : st0.nextAddr < 2 ^ 64) :
    ((CompactString.drop s st).2 =
      if s.lastByte = CompactString.lastByteHeap
      then [readBytesLE 8 0 s.bytes] else []) ∧
    (s.lastByte ≠ CompactString.lastByteHeap →
      CompactString.drop s st = (st, [])) ∧
    ((CompactString.new N text st0).2.live =
      (st0.nextAddr, text) :: st0.live) ∧
    (CompactString.drop (CompactString.new N text st0).1 st1 =
      (st1.free st0.nextAddr, [st0.nextAddr])) := by
  obtain ⟨hbytes, hst⟩ := new_heap_parts N text st0 hbig
  refine ⟨?_, ?_, ?_, ?_⟩
  · unfold CompactString.drop
    split
    · rfl
    · rfl
  · intro hne
    unfold CompactString.drop
    rw [if_neg hne]
  · rw [hst]
    rfl
  · have hlb : (CompactString.new N text st0).1.lastByte =
        CompactString.lastByteHeap := by
      have h2 : (CompactString.new N text st0).1.lastByte =
          CompactString.lastByte (N := N) ⟨(writeBytesLE 8 8 text.length
            (writeBytesLE 8 0 st0.nextAddr (List.replicate N 0))).set (N - 1)
            CompactString.lastByteHeap⟩ := by
        unfold CompactString.lastByte
        rw [hbytes]
      rw [h2, ptrBlock_lastByte N st0.nextAddr text.length _ (by omega)]
    unfold CompactString.drop
    rw [if_pos hlb, hbytes,
      ptrBlock_readPtr N st0.nextAddr text.length _ hN haddr]

/-- Witness for C7: a 17-byte string in a 16-byte container goes to the
heap at address 0, and dropping it frees exactly that address. -/
theorem C7_drop_frees_iff_witness :
    ((CompactString.new 16 (List.replicate 17 5) ⟨0, []⟩).2.live =
      [(0, List.replicate 17 5)]) ∧
    (CompactString.drop (CompactString.new 16 (List.replicate 17 5) ⟨0, []⟩).1
      ⟨9, [(0, List.replicate 17 5)]⟩ = (⟨9, []⟩, [0])) := by
  have h := C7_drop_frees_iff 16
    (CompactString.empty 16) ⟨0, []⟩ (List.replicate 17 5) ⟨0, []⟩
    ⟨9, [(0, List.replicate 17 5)]⟩ (by norm_num) (by simp) (by norm_num)
  refine ⟨by simpa using h.2.2.1, ?_⟩
  rw [h.2.2.2]
  decide

/-! ### Submission/completion ring (`src/lib.rs`)

`SpscRing` holds the two entry arrays, four cursors and the metadata
block. The entry arrays start as uninitialized memory
(`MaybeUninit::uninit().assume_init()`); we model each slot as an
`Option`, `none` meaning the slot has not been written, so that a
model-level read of an unwritten slot yields no value. The atomic
`u32` cursors are modelled as naturals (the spec describes them as
monotonically increasing). -/

structure SpscRing (Sqe Cqe : Type) (nSqe nCqe : Nat) (Meta : Type) where
  sq : List (Option Sqe)
  cq : List (Option Cqe)
  sqTail : Nat
  cqHead : Nat
  sqHead : Nat
  cqTail : Nat
  meta : Meta

/-- Mirrors `impl Default for SpscRing`: every cursor is
`AtomicU32::default()` (zero), `meta` is `Meta::default()` (the
`metaDefault` argument), and the entry arrays are uninitialized. -/
def SpscRing.defaultRing (Sqe Cqe : Type) (nSqe nCqe : Nat) (Meta : Type)
    (metaDefault : Meta) : SpscRing Sqe Cqe nSqe nCqe Meta :=
  { sq := List.replicate nSqe none,
    cq := List.replicate nCqe none,
    sqTail := 0,
    cqHead := 0,
    sqHead := 0,
    cqTail := 0,
    meta := metaDefault }

inductive SubmitOutcome where
  | ok
  | full
deriving Repr, DecidableEq

/-- Modelled from the spec: `src/lib.rs` declares the ring layout but
the client submit operation itself is not among the sources; this
follows spec section 4.3, steps 1 and 2 — compute
`depth = sq_tail - sq_head`; if `depth == capacity` report full and
change nothing, otherwise write the entry at `sq_tail mod capacity`
and advance `sq_tail`. -/
def SpscRing.submit {Sqe Cqe : Type} {nSqe nCqe : Nat} {Meta : Type}
    (r : SpscRing Sqe Cqe nSqe nCqe Meta) (e : Sqe) :
    SubmitOutcome × SpscRing Sqe Cqe nSqe nCqe Meta :=
  if r.sqTail - r.sqHead = nSqe then
    (SubmitOutcome.full, r)
  else
    (SubmitOutcome.ok,
     { r with
       sq := r.sq.set (r.sqTail % nSqe) (some e),
       sqTail := r.sqTail + 1 })

/-- C9: the `Default` construction zeroes all four cursors — both
queues start empty, head equal to tail — sets `meta` to its default,
and leaves every entry slot of both arrays unwritten (uninitialized
memory must not be read before a write). -/
theorem C9_default_ring (Sqe Cqe : Type) (nSqe nCqe : Nat) (Meta : Type)
    (md : Meta) :
    (SpscRing.defaultRing Sqe Cqe nSqe nCqe Meta md).sqTail = 0 ∧
    (SpscRing.defaultRing Sqe Cqe nSqe nCqe Meta md).cqHead = 0 ∧
    (SpscRing.defaultRing Sqe Cqe nSqe nCqe Meta md).sqHead = 0 ∧
    (SpscRing.defaultRing Sqe Cqe nSqe nCqe Meta md).cqTail = 0 ∧
    (SpscRing.defaultRing Sqe Cqe nSqe nCqe Meta md).meta = md ∧
    (∀ i : Nat,
      (SpscRing.defaultRing Sqe Cqe nSqe nCqe Meta md).sq.getD i none
        = none) ∧
    (∀ i : Nat,
      (SpscRing.defaultRing Sqe Cqe nSqe nCqe Meta md).cq.getD i none
        = none) := by
  refine ⟨rfl, rfl, rfl, rfl, rfl, ?_, ?_⟩
  · intro i
    unfold SpscRing.defaultRing
    simp [List.getD_eq_getElem?_getD, List.getElem?_replicate]
    split <;> rfl
  · intro i
    unfold SpscRing.defaultRing
    simp [List.getD_eq_getElem?_getD, List.getElem?_replicate]
    split <;> rfl

/-- C2: submitting to a full submission ring (depth = capacity) fails
non-fatally with the `full` status and leaves the whole ring — in
particular every previously submitted entry — unmodified; submitting
to a non-full ring succeeds, writes the entry at index
`sq_tail mod capacity` and advances `sq_tail` by one, leaving the
other cursors untouched. -/
theorem C2_submit_full_and_ok (Sqe Cqe : Type) (nSqe nCqe : Nat)
    (Meta : Type) (r : SpscRing Sqe Cqe nSqe nCqe Meta) (e : Sqe) :
    (r.sqTail - r.sqHead = nSqe →
      (r.submit e).1 = SubmitOutcome.full ∧ (r.submit e).2 = r) ∧
    (r.sqTail - r.sqHead ≠ nSqe →
      (r.submit e).1 = SubmitOutcome.ok ∧
      (r.submit e).2.sq = r.sq.set (r.sqTail % nSqe) (some e) ∧
      (r.submit e).2.sqTail = r.sqTail + 1 ∧
      (r.submit e).2.sqHead = r.sqHead ∧
      (r.submit e).2.cq = r.cq ∧
      (r.submit e).2.cqHead = r.cqHead ∧
      (r.submit e).2.cqTail = r.cqTail) := by
  constructor
  · intro hfull
    unfold SpscRing.submit
    rw [if_pos hfull]
    exact ⟨rfl, rfl⟩
  · intro hne
    unfold SpscRing.submit
    rw [if_neg hne]
    exact ⟨rfl, rfl, rfl, rfl, rfl, rfl, rfl⟩

/-- Witness for C2 with capacity 2: a full ring (depth 2) reports full
and is unchanged; a non-full ring accepts the entry at
`sq_tail mod 2`. -/
theorem C2_submit_full_and_ok_witness :
    ((@SpscRing.submit Nat Nat 2 2 Unit
        ⟨[some 10, some 11], [none, none], 2, 0, 0, 0, ()⟩
        99).1 = SubmitOutcome.full ∧
      (@SpscRing.submit Nat Nat 2 2 Unit
        ⟨[some 10, some 11], [none, none], 2, 0, 0, 0, ()⟩
        99).2 = ⟨[some 10, some 11], [none, none], 2, 0, 0, 0, ()⟩) ∧
    ((@SpscRing.submit Nat Nat 2 2 Unit
        ⟨[some 10, none], [none, none], 1, 0, 0, 0, ()⟩
        99).1 = SubmitOutcome.ok ∧
      (@SpscRing.submit Nat Nat 2 2 Unit
        ⟨[some 10, none], [none, none], 1, 0, 0, 0, ()⟩
        99).2.sq = [some 10, some 99]) := by
  constructor
  · exact (C2_submit_full_and_ok Nat Nat 2 2 Unit
      ⟨[some 10, some 11], [none, none], 2, 0, 0, 0, ()⟩ 99).1 (by decide)
  · have h := (C2_submit_full_and_ok Nat Nat 2 2 Unit
      ⟨[some 10, none], [none, none], 1, 0, 0, 0, ()⟩ 99).2 (by decide)
    refine ⟨h.1, ?_⟩
    rw [h.2.1]
    decide

/-! ### Schema compiler (`rpc-ring-macro/src/lib.rs`)

The parsed input of `def_schema!` is a `Schema`: the request and
response envelope declarations and an ordered entry list. Payload
types are `syn::Type` values; for the validation logic only the
distinction path/non-path, the segment list and the presence of
generic arguments matter, which `RustType` captures. The sizes of the
generated `Request`/`Response` payload types are determined by the
Rust compiler, so they enter the model as parameters. -/

inductive RustType where
  | path (segments : List String) (genericArgs : Bool)
  | other
deriving Repr, DecidableEq, Inhabited

/-- Mirrors `syn::Path::get_ident`: some identifier exactly when the
path is a single segment without generic arguments. -/
def RustType.getIdent : RustType → Option String
  | RustType.path [s] false => some s
  | _ => none

structure SchemaEntry where
  discriminant : Option Nat
  req : RustType
  resp : RustType
deriving Repr, DecidableEq, Inhabited

structure Schema where
  sqeName : String
  sqeSize : Nat
  reqName : String
  cqeName : String
  cqeSize : Nat
  respName : String
  entries : List SchemaEntry
deriving Repr, DecidableEq, Inhabited

def isUpperCh (c : Char) : Bool := 65 ≤ c.toNat && c.toNat ≤ 90

def toLowerCh (c : Char) : Char :=
  if isUpperCh c then Char.ofNat (c.toNat + 32) else c

/-- Models `heck::AsSnakeCase` on identifiers made of ASCII letters and
digits: a word boundary falls before an uppercase letter that follows
a non-uppercase character, or before the last uppercase letter of an
uppercase run that is followed by a non-uppercase character. -/
def snakeCaseGo : Char → List Char → List Char
  | _, [] => []
  | prev, c :: rest =>
    if (!isUpperCh prev && isUpperCh c) ||
        (isUpperCh prev && isUpperCh c &&
          (match rest with
           | r :: _ => !isUpperCh r
           | [] => false)) then
      Char.ofNat 95 :: toLowerCh c :: snakeCaseGo c rest
    else
      toLowerCh c :: snakeCaseGo c rest

def snakeCase (s : String) : String :=
  match s.toList with
  | [] => ""
  | c :: rest => List.asString (toLowerCh c :: snakeCaseGo c rest)

/-- Mirrors the per-entry validation building `response_field_names`:
the request type must be a path, and that path a single identifier;
the field name is its snake-case form. The response type is never
inspected. -/
def responseFieldName (e : SchemaEntry) : Except String String :=
  match e.req with
  | RustType.other =>
    Except.error "Request type must be a path-like type"
  | RustType.path segs args =>
    match RustType.getIdent (RustType.path segs args) with
    | some id => Except.ok (snakeCase id)
    | none => Except.error "Request type must be a single identifier, not a path"

/-- Mirrors `collect::<syn::Result<Vec<_>>>`: first error wins. -/
def collectFieldNames : List SchemaEntry → Except String (List String)
  | [] => Except.ok []
  | e :: rest =>
    match responseFieldName e with
    | Except.error msg => Except.error msg
    | Except.ok n =>
      match collectFieldNames rest with
      | Except.error msg => Except.error msg
      | Except.ok ns => Except.ok (n :: ns)

def alignUp (n a : Nat) : Nat :=
  if a = 0 then n else ((n + a - 1) / a) * a

/-- Size of the generated `#[repr(C, align(size))]` envelope struct
`{ id: u64, payload }` under the Rust `repr(C)` layout rules, assuming
the payload alignment divides 8 and the declared size dominates the
field alignments (true for the power-of-two cache-line sizes the
schema grammar is built for): the fields occupy `8 + payloadSize`
bytes and the struct is padded to a multiple of its alignment, which
`align(size)` forces to the declared size. -/
def envelopeActualSize (declaredSize payloadSize : Nat) : Nat :=
  alignUp (8 + payloadSize) declaredSize

/-- The generated items that the claims are about: the two
`const _: () = assert!(size_of::<T>() == size)` items (stored as
actual/declared pairs), the request enum variants with their explicit
discriminant tokens, and the response union fields. -/
structure GeneratedCode where
  sizeAsserts : List (Nat × Nat)
  requestVariants : List (RustType × Option Nat)
  responseFields : List (String × RustType)
deriving Repr, DecidableEq, Inhabited

/-- A const size assertion with a false condition fails the build. -/
def GeneratedCode.buildFails (g : GeneratedCode) : Bool :=
  g.sizeAsserts.any (fun p => p.1 != p.2)

/-- Mirrors the `def_schema` proc macro after parsing: validate the
request payload types (building the response field names), then emit
the size assertions, the request enum and the response union.
`sqePayloadSize`/`cqePayloadSize` are the compiler-determined sizes of
the generated `Request`/`Response` types. -/
def def_schema (s : Schema) (sqePayloadSize cqePayloadSize : Nat) :
    Except String GeneratedCode :=
  match collectFieldNames s.entries with
  | Except.error msg => Except.error msg
  | Except.ok names =>
    Except.ok
      { sizeAsserts :=
          [(envelopeActualSize s.sqeSize sqePayloadSize, s.sqeSize),
           (envelopeActualSize s.cqeSize cqePayloadSize, s.cqeSize)],
        requestVariants :=
          s.entries.map (fun e => (e.req, e.discriminant)),
        responseFields :=
          names.zip (s.entries.map (fun e => e.resp)) }

instance {e a : Type} [DecidableEq e] [DecidableEq a] :
    DecidableEq (Except e a) := fun x y =>
  match x, y with
  | Except.ok u, Except.ok v =>
    if h : u = v then Decidable.isTrue (by rw [h])
    else Decidable.isFalse (by intro hc; cases hc; exact h rfl)
  | Except.error u, Except.error v =>
    if h : u = v then Decidable.isTrue (by rw [h])
    else Decidable.isFalse (by intro hc; cases hc; exact h rfl)
  | Except.ok _, Except.error _ => Decidable.isFalse (by intro hc; cases hc)
  | Except.error _, Except.ok _ => Decidable.isFalse (by intro hc; cases hc)

def exceptIsOk {ε α : Type} : Except ε α → Bool
  | Except.ok _ => true
  | Except.error _ => false

/-- Models the Rust discriminant assignment rule for a `repr(u32)` enum
(the rule the generated `enum Request` relies on, see the reference
link quoted in the macro): an explicit `= d` token is used verbatim,
an omitted discriminant is the previous one plus one, or zero for the
first variant. -/
def assignFrom : Nat → List (Option Nat) → List Nat
  | _, [] => []
  | next, none :: rest => next :: assignFrom (next + 1) rest
  | _, some d :: rest => d :: assignFrom (d + 1) rest

def assignDiscriminants (xs : List (Option Nat)) : List Nat :=
  assignFrom 0 xs

theorem responseFieldName_error_iff (e : SchemaEntry) :
    (∃ msg, responseFieldName e = Except.error msg) ↔
    e.req.getIdent = none := by
  cases hreq : e.req with
  | other => simp [responseFieldName, hreq, RustType.getIdent]
  | path segs args =>
    cases hgi : RustType.getIdent (RustType.path segs args) with
    | some id => simp [responseFieldName, hreq, hgi]
    | none => simp [responseFieldName, hreq, hgi]

theorem responseFieldName_ok_then (e : SchemaEntry) (n : String)
    (h : responseFieldName e = Except.ok n) :
    ∃ id, e.req.getIdent = some id ∧ n = snakeCase id := by
  cases hreq : e.req with
  | other => simp [responseFieldName, hreq] at h
  | path segs args =>
    simp only [responseFieldName, hreq] at h
    cases hgi : RustType.getIdent (RustType.path segs args) with
    | some id =>
      rw [hgi] at h
      cases h
      exact ⟨id, rfl, rfl⟩
    | none =>
      rw [hgi] at h
      cases h

theorem collectFieldNames_error_iff (es : List SchemaEntry) :
    (∃ msg, collectFieldNames es = Except.error msg) ↔
    ∃ e ∈ es, e.req.getIdent = none := by
  induction es with
  | nil => simp [collectFieldNames]
  | cons e rest ih =>
    cases hfe : responseFieldName e with
    | error m =>
      have hhead : e.req.getIdent = none :=
        (responseFieldName_error_iff e).mp ⟨m, hfe⟩
      simp only [collectFieldNames, hfe]
      constructor
      · intro _
        exact ⟨e, by simp, hhead⟩
      · intro _
        exact ⟨m, rfl⟩
    | ok n =>
      have hhead : ¬ e.req.getIdent = none := by
        intro hnone
        obtain ⟨m, hm⟩ := (responseFieldName_error_iff e).mpr hnone
        rw [hfe] at hm
        cases hm
      cases hcr : collectFieldNames rest with
      | error m2 =>
        have htail : ∃ e2 ∈ rest, e2.req.getIdent = none :=
          ih.mp ⟨m2, hcr⟩
        simp only [collectFieldNames, hfe, hcr]
        constructor
        · intro _
          obtain ⟨e2, he2, hid⟩ := htail
          exact ⟨e2, by simp [he2], hid⟩
        · intro _
          exact ⟨m2, rfl⟩
      | ok ns =>
        simp only [collectFieldNames, hfe, hcr]
        constructor
        · rintro ⟨m, hm⟩
          cases hm
        · rintro ⟨e2, he2, hid⟩
          rcases List.mem_cons.mp he2 with he2 | he2
          · subst he2
            exact absurd hid hhead
          · obtain ⟨m, hm⟩ := ih.mpr ⟨e2, he2, hid⟩
            rw [hcr] at hm
            cases hm

/-- C5 (amended): the request payload type of every entry must be a
single simple name — otherwise the schema compiler fails the build
with an error; the response payload type is never validated. -/
theorem C5_request_type_validated (s : Schema) (spq cpq : Nat) :
    (∃ msg, def_schema s spq cpq = Except.error msg) ↔
    ∃ e ∈ s.entries, e.req.getIdent = none := by
  rw [← collectFieldNames_error_iff s.entries]
  unfold def_schema
  cases hcf : collectFieldNames s.entries with
  | error m =>
    constructor
    · intro _
      exact ⟨m, rfl⟩
    · intro _
      exact ⟨m, rfl⟩
  | ok names =>
    constructor
    · rintro ⟨m, hm⟩
      cases hm
    · rintro ⟨m, hm⟩
      cases hm

/-- Counterexample to C5 as stated: an entry whose response payload
type is a multi-segment path (not a single simple name) is accepted by
the schema compiler without any failure. -/
theorem C5_counterexample :
    exceptIsOk (def_schema
      { sqeName := "Sqe", sqeSize := 64, reqName := "Request",
        cqeName := "Cqe", cqeSize := 64, respName := "Response",
        entries := [{ discriminant := none,
                      req := RustType.path ["LinkRead"] false,
                      resp := RustType.path ["std", "io", "Err"] false }] }
      56 56) = true := by
  rfl

/-- Witness for C5 (amended): an entry with a multi-segment request
payload type makes `def_schema` fail. -/
theorem C5_request_type_validated_witness :
    exceptIsOk (def_schema
      { sqeName := "Sqe", sqeSize := 64, reqName := "Request",
        cqeName := "Cqe", cqeSize := 64, respName := "Response",
        entries := [{ discriminant := none,
                      req := RustType.path ["std", "io", "Err"] false,
                      resp := RustType.path ["Reply"] false }] }
      56 56) = false := by
  obtain ⟨msg, hm⟩ := (C5_request_type_validated
    { sqeName := "Sqe", sqeSize := 64, reqName := "Request",
      cqeName := "Cqe", cqeSize := 64, respName := "Response",
      entries := [{ discriminant := none,
                    req := RustType.path ["std", "io", "Err"] false,
                    resp := RustType.path ["Reply"] false }] }
    56 56).mpr
    ⟨{ discriminant := none,
       req := RustType.path ["std", "io", "Err"] false,
       resp := RustType.path ["Reply"] false }, by simp, by rfl⟩
  rw [hm]
  rfl

theorem le_alignUp (n a : Nat) (ha : 0 < a) : n ≤ alignUp n a := by
  unfold alignUp
  rw [if_neg (by omega)]
  rcases Nat.eq_zero_or_pos n with h0 | hpos
  · subst h0
    exact Nat.zero_le _
  · have hq : (n + a - 1) / a = (n - 1) / a + 1 := by
      have h : n + a - 1 = (n - 1) + a := by omega
      rw [h, Nat.add_div_right _ ha]
    rw [hq, Nat.add_mul, Nat.one_mul]
    exact Nat.le_of_pred_lt (Nat.lt_div_mul_add ha)

theorem def_schema_ok_parts (s : Schema) (spq cpq : Nat) (g : GeneratedCode)
    (hg : def_schema s spq cpq = Except.ok g) :
    ∃ names, collectFieldNames s.entries = Except.ok names ∧
      g.sizeAsserts =
        [(envelopeActualSize s.sqeSize spq, s.sqeSize),
         (envelopeActualSize s.cqeSize cpq, s.cqeSize)] ∧
      g.requestVariants = s.entries.map (fun e => (e.req, e.discriminant)) ∧
      g.responseFields = names.zip (s.entries.map (fun e => e.resp)) := by
  unfold def_schema at hg
  cases hcf : collectFieldNames s.entries with
  | error m =>
    rw [hcf] at hg
    cases hg
  | ok names =>
    rw [hcf] at hg
    cases hg
    exact ⟨names, rfl, rfl, rfl, rfl⟩

/-- C3: for a schema the compiler accepts, the generated code fails
the build exactly when one of the generated envelope types has an
actual memory size different from its declared size (the two emitted
`const` assertions compare exactly these); in particular a positive
declared size too small for the id field plus the payload forces a
mismatch, so an undersized declared length fails the build. -/
theorem C3_envelope_size_assert (s : Schema) (spq cpq : Nat)
    (g : GeneratedCode) (hg : def_schema s spq cpq = Except.ok g) :
    (g.buildFails = true ↔
      (envelopeActualSize s.sqeSize spq ≠ s.sqeSize ∨
       envelopeActualSize s.cqeSize cpq ≠ s.cqeSize)) ∧
    (0 < s.sqeSize → s.sqeSize < 8 + spq → g.buildFails = true) := by
  obtain ⟨names, _, hsa, _, _⟩ := def_schema_ok_parts s spq cpq g hg
  have hbf : g.buildFails =
      ((envelopeActualSize s.sqeSize spq != s.sqeSize) ||
       (envelopeActualSize s.cqeSize cpq != s.cqeSize)) := by
    unfold GeneratedCode.buildFails
    rw [hsa]
    simp [List.any]
  constructor
  · rw [hbf]
    simp [bne_iff_ne]
  · intro hpos hunder
    rw [hbf]
    have hge : 8 + spq ≤ envelopeActualSize s.sqeSize spq :=
      le_alignUp (8 + spq) s.sqeSize hpos
    have hne : envelopeActualSize s.sqeSize spq ≠ s.sqeSize := by omega
    simp [bne_iff_ne, hne]

/-- Witness for C3: declared size 64 with payload 56 passes both
assertions; declared size 16 with payload 56 is undersized and fails
the build. -/
theorem C3_envelope_size_assert_witness :
    (GeneratedCode.buildFails
      { sizeAsserts := [(64, 64), (64, 64)],
        requestVariants := [(RustType.path ["LinkRead"] false, none)],
        responseFields := [("link_read", RustType.path ["Reply"] false)] }
      = false) ∧
    (GeneratedCode.buildFails
      { sizeAsserts := [(64, 16), (64, 64)],
        requestVariants := [(RustType.path ["LinkRead"] false, none)],
        responseFields := [("link_read", RustType.path ["Reply"] false)] }
      = true) := by
  constructor
  · have h := (C3_envelope_size_assert
      { sqeName := "Sqe", sqeSize := 64, reqName := "Request",
        cqeName := "Cqe", cqeSize := 64, respName := "Response",
        entries := [{ discriminant := none,
                      req := RustType.path ["LinkRead"] false,
                      resp := RustType.path ["Reply"] false }] }
      56 56
      { sizeAsserts := [(64, 64), (64, 64)],
        requestVariants := [(RustType.path ["LinkRead"] false, none)],
        responseFields := [("link_read", RustType.path ["Reply"] false)] }
      (by decide)).1
    cases hb : GeneratedCode.buildFails
        { sizeAsserts := [(64, 64), (64, 64)],
          requestVariants := [(RustType.path ["LinkRead"] false, none)],
          responseFields := [("link_read", RustType.path ["Reply"] false)] }
    · rfl
    · exact absurd (h.mp hb) (by decide)
  · exact (C3_envelope_size_assert
      { sqeName := "Sqe", sqeSize := 16, reqName := "Request",
        cqeName := "Cqe", cqeSize := 64, respName := "Response",
        entries := [{ discriminant := none,
                      req := RustType.path ["LinkRead"] false,
                      resp := RustType.path ["Reply"] false }] }
      56 56
      { sizeAsserts := [(64, 16), (64, 64)],
        requestVariants := [(RustType.path ["LinkRead"] false, none)],
        responseFields := [("link_read", RustType.path ["Reply"] false)] }
      (by decide)).2 (by norm_num) (by norm_num)

theorem assignFrom_length (xs : List (Option Nat)) :
    ∀ next : Nat, (assignFrom next xs).length = xs.length := by
  induction xs with
  | nil => intro next; rfl
  | cons x rest ih =>
    intro next
    cases x with
    | none => simp [assignFrom, ih]
    | some d => simp [assignFrom, ih]

theorem assignFrom_getD (xs : List (Option Nat)) :
    ∀ (next i : Nat), i < xs.length →
    (xs.getD i none = none →
      (assignFrom next xs).getD i 0 =
        (if i = 0 then next else (assignFrom next xs).getD (i - 1) 0 + 1)) ∧
    (∀ d, xs.getD i none = some d → (assignFrom next xs).getD i 0 = d) := by
  induction xs with
  | nil => intro next i hi; simp at hi
  | cons x rest ih =>
    intro next i hi
    match i with
    | 0 =>
      constructor
      · intro hx
        simp only [List.getD_cons_zero] at hx
        subst hx
        simp [assignFrom]
      · intro d hd
        simp only [List.getD_cons_zero] at hd
        subst hd
        simp [assignFrom]
    | j + 1 =>
      have hj : j < rest.length := by
        simp at hi
        omega
      cases x with
      | none =>
        have ihj := ih (next + 1) j hj
        simp only [assignFrom, List.getD_cons_succ]
        constructor
        · intro hx
          rw [ihj.1 hx]
          match j with
          | 0 => simp
          | k + 1 =>
            rw [if_neg (by omega), if_neg (by omega)]
            simp
        · intro d hd
          exact ihj.2 d hd
      | some d0 =>
        have ihj := ih (d0 + 1) j hj
        simp only [assignFrom, List.getD_cons_succ]
        constructor
        · intro hx
          rw [ihj.1 hx]
          match j with
          | 0 => simp
          | k + 1 =>
            rw [if_neg (by omega), if_neg (by omega)]
            simp
        · intro d hd
          exact ihj.2 d hd

/-- C4: the operation code of each generated request variant is its
explicit code verbatim when one is given, the previous variant's
assigned code plus one when omitted, and zero for a first variant with
no explicit code. -/
theorem C4_discriminant_rule (s : Schema) (spq cpq : Nat)
    (g : GeneratedCode) (hg : def_schema s spq cpq = Except.ok g)
    (i : Nat) (hi : i < s.entries.length) :
    g.requestVariants.map Prod.snd =
      s.entries.map SchemaEntry.discriminant ∧
    (assignDiscriminants (g.requestVariants.map Prod.snd)).length =
      s.entries.length ∧
    (∀ d, (s.entries.get ⟨i, hi⟩).discriminant = some d →
      (assignDiscriminants (g.requestVariants.map Prod.snd)).getD i 0 = d) ∧
    ((s.entries.get ⟨i, hi⟩).discriminant = none →
      (assignDiscriminants (g.requestVariants.map Prod.snd)).getD i 0 =
        (if i = 0 then 0
         else (assignDiscriminants
           (g.requestVariants.map Prod.snd)).getD (i - 1) 0 + 1)) := by
  obtain ⟨names, _, _, hrv, _⟩ := def_schema_ok_parts s spq cpq g hg
  have hmap : g.requestVariants.map Prod.snd =
      s.entries.map SchemaEntry.discriminant := by
    rw [hrv, List.map_map]
    rfl
  have hlen2 : i < (s.entries.map SchemaEntry.discriminant).length := by
    simpa using hi
  have hgetD : (s.entries.map SchemaEntry.discriminant).getD i none =
      (s.entries.get ⟨i, hi⟩).discriminant := by
    simp [List.getD_eq_getElem?_getD, List.getElem?_map,
      List.getElem?_eq_getElem hi]
  have hspec := assignFrom_getD (s.entries.map SchemaEntry.discriminant)
    0 i hlen2
  refine ⟨hmap, ?_, ?_, ?_⟩
  · unfold assignDiscriminants
    rw [hmap, assignFrom_length]
    simp
  · intro d hd
    unfold assignDiscriminants
    rw [hmap]
    exact hspec.2 d (by rw [hgetD]; exact hd)
  · intro hnone
    unfold assignDiscriminants
    rw [hmap]
    exact hspec.1 (by rw [hgetD]; exact hnone)

/-- Witness for C4: entries `4096: A -> X; B -> Y; 8192: C -> Z;`
assign codes 4096, 4097 and 8192. -/
theorem C4_discriminant_rule_witness :
    (assignDiscriminants
      (List.map Prod.snd (GeneratedCode.requestVariants
        { sizeAsserts := [(64, 64), (64, 64)],
          requestVariants :=
            [(RustType.path ["A"] false, some 4096),
             (RustType.path ["B"] false, none),
             (RustType.path ["C"] false, some 8192)],
          responseFields :=
            [("a", RustType.path ["X"] false),
             ("b", RustType.path ["Y"] false),
             ("c", RustType.path ["Z"] false)] }))).getD 0 0 = 4096 ∧
    (assignDiscriminants
      (List.map Prod.snd (GeneratedCode.requestVariants
        { sizeAsserts := [(64, 64), (64, 64)],
          requestVariants :=
            [(RustType.path ["A"] false, some 4096),
             (RustType.path ["B"] false, none),
             (RustType.path ["C"] false, some 8192)],
          responseFields :=
            [("a", RustType.path ["X"] false),
             ("b", RustType.path ["Y"] false),
             ("c", RustType.path ["Z"] false)] }))).getD 1 0 = 4097 ∧
    (assignDiscriminants
      (List.map Prod.snd (GeneratedCode.requestVariants
        { sizeAsserts := [(64, 64), (64, 64)],
          requestVariants :=
            [(RustType.path ["A"] false, some 4096),
             (RustType.path ["B"] false, none),
             (RustType.path ["C"] false, some 8192)],
          responseFields :=
            [("a", RustType.path ["X"] false),
             ("b", RustType.path ["Y"] false),
             ("c", RustType.path ["Z"] false)] }))).getD 2 0 = 8192 := by
  have hg2 : def_schema
      { sqeName := "Sqe", sqeSize := 64, reqName := "Request",
        cqeName := "Cqe", cqeSize := 64, respName := "Response",
        entries :=
          [{ discriminant := some 4096,
             req := RustType.path ["A"] false,
             resp := RustType.path ["X"] false },
           { discriminant := none,
             req := RustType.path ["B"] false,
             resp := RustType.path ["Y"] false },
           { discriminant := some 8192,
             req := RustType.path ["C"] false,
             resp := RustType.path ["Z"] false }] }
      56 56 = Except.ok
        { sizeAsserts := [(64, 64), (64, 64)],
          requestVariants :=
            [(RustType.path ["A"] false, some 4096),
             (RustType.path ["B"] false, none),
             (RustType.path ["C"] false, some 8192)],
          responseFields :=
            [("a", RustType.path ["X"] false),
             ("b", RustType.path ["Y"] false),
             ("c", RustType.path ["Z"] false)] } := by decide
  have h0 := C4_discriminant_rule _ 56 56 _ hg2 0 (by norm_num)
  have h1 := C4_discriminant_rule _ 56 56 _ hg2 1 (by norm_num)
  have h2 := C4_discriminant_rule _ 56 56 _ hg2 2 (by norm_num)
  have e0 := h0.2.2.1 4096 (by rfl)
  have e2 := h2.2.2.1 8192 (by rfl)
  have e1 := h1.2.2.2 (by rfl)
  rw [if_neg (by omega)] at e1
  simp only [Nat.sub_self] at e1
  exact ⟨e0, by rw [e1, e0], e2⟩

theorem collectFieldNames_ok_spec (es : List SchemaEntry) :
    ∀ names, collectFieldNames es = Except.ok names →
    names.length = es.length ∧
    ∀ i (hi : i < es.length), ∃ id,
      ((es.get ⟨i, hi⟩).req).getIdent = some id ∧
      names.getD i "" = snakeCase id := by
  induction es with
  | nil =>
    intro names h
    simp only [collectFieldNames] at h
    cases h
    exact ⟨rfl, fun i hi => absurd hi (by simp)⟩
  | cons e rest ih =>
    intro names h
    simp only [collectFieldNames] at h
    cases hfe : responseFieldName e with
    | error m =>
      rw [hfe] at h
      cases h
    | ok n =>
      rw [hfe] at h
      cases hcr : collectFieldNames rest with
      | error m =>
        rw [hcr] at h
        cases h
      | ok ns =>
        rw [hcr] at h
        cases h
        obtain ⟨hlen, hspec⟩ := ih ns hcr
        obtain ⟨id0, hid0, hn0⟩ := responseFieldName_ok_then e n hfe
        refine ⟨by simp [hlen], ?_⟩
        intro i hi
        match i with
        | 0 => exact ⟨id0, hid0, by simpa using hn0⟩
        | j + 1 =>
          have hj : j < rest.length := by
            simp at hi
            omega
          obtain ⟨id, hid, hnj⟩ := hspec j hj
          exact ⟨id, hid, by simpa using hnj⟩

/-- C8: each generated response union arm is a named field — the
entry's request payload type identifier converted to snake case —
paired with that entry's response payload type, so arms are addressed
by that derived name rather than positionally. -/
theorem C8_response_union_fields (s : Schema) (spq cpq : Nat)
    (g : GeneratedCode) (hg : def_schema s spq cpq = Except.ok g)
    (i : Nat) (hi : i < s.entries.length) :
    g.responseFields.length = s.entries.length ∧
    ∃ id, ((s.entries.get ⟨i, hi⟩).req).getIdent = some id ∧
      g.responseFields.getD i ("", RustType.other) =
        (snakeCase id, (s.entries.get ⟨i, hi⟩).resp) := by
  obtain ⟨names, hcf, _, _, hrf⟩ := def_schema_ok_parts s spq cpq g hg
  obtain ⟨hlen, hspec⟩ := collectFieldNames_ok_spec s.entries names hcf
  obtain ⟨id, hid, hname⟩ := hspec i hi
  have hilt : i < names.length := by omega
  have h1 : names[i]? = some names[i] := List.getElem?_eq_getElem hilt
  have h2 : (s.entries.map (fun e => e.resp))[i]? =
      some (s.entries.get ⟨i, hi⟩).resp := by
    rw [List.getElem?_map, List.getElem?_eq_getElem hi]
    rfl
  have hni : names[i] = snakeCase id := by
    have hgd : names.getD i "" = names[i] := by
      simp [List.getD_eq_getElem?_getD, h1]
    rw [← hgd, hname]
  constructor
  · rw [hrf]
    simp [List.length_zip, hlen]
  · refine ⟨id, hid, ?_⟩
    rw [hrf]
    have hzip : (names.zip (s.entries.map (fun e => e.resp)))[i]? =
        some (names[i], (s.entries.get ⟨i, hi⟩).resp) := by
      rw [List.zip, List.getElem?_zipWith, h1, h2]
    simp [List.getD_eq_getElem?_getD, hzip, hni]

/-- Witness for C8: the entry `LinkRead -> Reply` produces the union
field `link_read: Reply`. -/
theorem C8_response_union_fields_witness :
    (GeneratedCode.responseFields
      { sizeAsserts := [(64, 64), (64, 64)],
        requestVariants := [(RustType.path ["LinkRead"] false, none)],
        responseFields :=
          [("link_read", RustType.path ["Reply"] false)] }).getD 0
      ("", RustType.other) =
    ("link_read", RustType.path ["Reply"] false) := by
  have hg2 : def_schema
      { sqeName := "Sqe", sqeSize := 64, reqName := "Request",
        cqeName := "Cqe", cqeSize := 64, respName := "Response",
        entries := [{ discriminant := none,
                      req := RustType.path ["LinkRead"] false,
                      resp := RustType.path ["Reply"] false }] }
      56 56 = Except.ok
        { sizeAsserts := [(64, 64), (64, 64)],
          requestVariants := [(RustType.path ["LinkRead"] false, none)],
          responseFields :=
            [("link_read", RustType.path ["Reply"] false)] } := by decide
  obtain ⟨id, hid, hval⟩ :=
    (C8_response_union_fields _ 56 56 _ hg2 0 (by norm_num)).2
  have hid2 : id = "LinkRead" := by
    simp [RustType.getIdent] at hid
    exact hid.symm
  rw [hval, hid2]
  rfl
